import Mathlib

/-!
Verification of the relationship-graph / package layer of `python-pptx`
(`pptx/presentation.py`) and the chart plot accessors (`pptx/chart/plot.py`).

Parts are identified by numeric ids (`Fin n` for a package with `n` parts);
identity of a Python object is modelled as equality of its id.  Stateful
Python code (attribute caching, list mutation, the class-level instance
registry) is modelled by explicit state passing.
-/

namespace PPTX

/-! ## `lazyproperty` (`pptx/presentation.py`, lines 28-44)

The decorator caches the computed value in an attribute `_name` on the owning
object.  The cache slot of one object/property pair is an `Option α` (absent
attribute = `none`); the initializer is a value `f : α` (the Python initializer
is deterministic for a fixed object).  To observe how often the initializer
runs, the model threads a call counter that increments exactly when the
initializer body is entered. -/

structure LazyState (α : Type) where
  cache : Option α
  calls : Nat
  deriving Repr, DecidableEq

/-- `get_prop_value`: try the cached attribute; on `AttributeError` (cache
absent) invoke the initializer, store the result, return it. -/
def get_prop_value (f : α) : LazyState α → α × LazyState α
  | ⟨none, k⟩ => (f, ⟨some f, k + 1⟩)
  | ⟨some v, k⟩ => (v, ⟨some v, k⟩)

/-- The list of values returned by `n` successive accesses of the property,
paired with the final state. -/
def accessN (f : α) : Nat → LazyState α → List α × LazyState α
  | 0, s => ([], s)
  | n + 1, s =>
    let (v, s') := get_prop_value f s
    let (vs, s'') := accessN f n s'
    (v :: vs, s'')

/-! ## `Package._walkparts` / `Package._parts` (lines 153-178)

The live part graph of a package with `n` parts: `g p` is the list of target
parts of the relationships owned by part `p` (`part._relationships`, in
iteration order), and `roots` is the list of targets of the package-level
relationship collection (`self._rels`).

`_walkparts` is a recursive generator sharing one mutable `parts` list across
all nested calls; a part is yielded exactly when it is appended to `parts`,
so the total yield sequence of the outer call equals the final `parts` list.
The model passes `visited` explicitly and returns its final value.  Python
recursion depth is modelled by `fuel`, decremented at each nested
`_walkparts` call; `none` means the recursion would not have terminated
within that depth. -/

/-- One level of `_walkparts`: the `for rel in rels` loop at a fixed
recursion depth.  `deeper` is the nested `_walkparts` call one stack frame
down (`fun _ _ => none` once the modelled stack budget is exhausted). -/
def walkLevel (g : Fin n → List (Fin n))
    (deeper : List (Fin n) → List (Fin n) → Option (List (Fin n))) :
    List (Fin n) → List (Fin n) → Option (List (Fin n))
  | [], visited => some visited
  | r :: rs, visited =>
    if r ∈ visited then
      walkLevel g deeper rs visited
    else
      match deeper (g r) (visited ++ [r]) with
      | none => none
      | some v₁ => walkLevel g deeper rs v₁

def walkpartsF (g : Fin n → List (Fin n)) :
    Nat → List (Fin n) → List (Fin n) → Option (List (Fin n))
  | 0 => walkLevel g (fun _ _ => none)
  | fuel + 1 => walkLevel g (walkpartsF g fuel)

/-- `Package._parts`: the list produced by walking from the package-level
relationships with an initially empty `parts` list.  Recursion depth of the
Python traversal is bounded by the number of parts, so `n` units of fuel
model an unbounded call stack (proved below). -/
def Package.parts (g : Fin n → List (Fin n)) (roots : List (Fin n)) :
    Option (List (Fin n)) :=
  walkpartsF g n roots []

/-! ### Traversal invariants -/

/-- A list of distinct parts that misses some part has fewer than `n`
elements when counted as a finset. -/
theorem card_lt_of_not_mem {n : Nat} {visited : List (Fin n)} {r : Fin n}
    (hr : r ∉ visited) : visited.toFinset.card < n := by
  have hsub : visited.toFinset ⊂ Finset.univ := by
    refine Finset.ssubset_univ_iff.mpr ?_
    intro he
    exact hr (List.mem_toFinset.mp (he ▸ Finset.mem_univ r))
  calc visited.toFinset.card < Finset.univ.card := Finset.card_lt_card hsub
    _ = n := by simp

theorem walkpartsF_spec (g : Fin n → List (Fin n)) :
    ∀ (fuel : Nat) (rels visited : List (Fin n)),
      visited.Nodup →
      n - visited.toFinset.card ≤ fuel →
      ∃ v, walkpartsF g fuel rels visited = some v ∧
        visited ⊆ v ∧ v.Nodup := by
  intro fuel
  induction fuel with
  | zero =>
    intro rels
    induction rels with
    | nil => exact fun visited hnd _ => ⟨visited, rfl, fun _ h => h, hnd⟩
    | cons r rs ih =>
      intro visited hnd hle
      by_cases hr : r ∈ visited
      · obtain ⟨v, hv, hsub, hvnd⟩ := ih visited hnd hle
        refine ⟨v, ?_, hsub, hvnd⟩
        show walkLevel g (fun _ _ => none) (r :: rs) visited = some v
        simpa [walkLevel, hr] using hv
      · exact absurd hle (by have := card_lt_of_not_mem hr; omega)
  | succ fuel' ihf =>
    intro rels
    induction rels with
    | nil => exact fun visited hnd _ => ⟨visited, rfl, fun _ h => h, hnd⟩
    | cons r rs ih =>
      intro visited hnd hle
      by_cases hr : r ∈ visited
      · obtain ⟨v, hv, hsub, hvnd⟩ := ih visited hnd hle
        refine ⟨v, ?_, hsub, hvnd⟩
        show walkLevel g (walkpartsF g fuel') (r :: rs) visited = some v
        simpa [walkLevel, hr] using hv
      · have hnd' : (visited ++ [r]).Nodup := by
          simp [List.nodup_append, hnd, hr]
        have hcardlt : visited.toFinset.card < n := card_lt_of_not_mem hr
        have hcard' : (visited ++ [r]).toFinset.card = visited.toFinset.card + 1 := by
          have heq : (visited ++ [r]).toFinset = insert r visited.toFinset := by
            ext x
            simp [List.toFinset_append, or_comm]
          rw [heq, Finset.card_insert_of_not_mem
            (fun hc => hr (List.mem_toFinset.mp hc))]
        have hle₁ : n - (visited ++ [r]).toFinset.card ≤ fuel' := by omega
        obtain ⟨v₁, hv₁, hsub₁, hnd₁⟩ := ihf (g r) (visited ++ [r]) hnd' hle₁
        have hcard₁ : (visited ++ [r]).toFinset.card ≤ v₁.toFinset.card := by
          apply Finset.card_le_card
          intro x hx
          exact List.mem_toFinset.mpr (hsub₁ (List.mem_toFinset.mp hx))
        have hle₂ : n - v₁.toFinset.card ≤ fuel' + 1 := by omega
        obtain ⟨v₂, hv₂, hsub₂, hnd₂⟩ := ih v₁ hnd₁ hle₂
        refine ⟨v₂, ?_, ?_, hnd₂⟩
        · show walkLevel g (walkpartsF g fuel') (r :: rs) visited = some v₂
          rw [walkLevel, if_neg hr, hv₁]
          exact hv₂
        · intro x hx
          exact hsub₂ (hsub₁ (by simp [hx]))

/-- A part is reachable from the root relationships: it is a root target,
or a relationship target of an already reachable part. -/
inductive Reaches (g : Fin n → List (Fin n)) (roots : List (Fin n)) :
    Fin n → Prop where
  | root : ∀ {p}, p ∈ roots → Reaches g roots p
  | step : ∀ {p q}, Reaches g roots p → q ∈ g p → Reaches g roots q

/-- Closure invariant of a successful traversal: every entry of the pending
relationship list ends up visited, the incoming visited list is preserved,
and every visited part either was already visited on entry or has had all
of its relationship targets visited as well. -/
theorem walkpartsF_complete (g : Fin n → List (Fin n)) :
    ∀ (fuel : Nat) (rels visited v : List (Fin n)),
      walkpartsF g fuel rels visited = some v →
      rels ⊆ v ∧ visited ⊆ v ∧
        ∀ x ∈ v, x ∈ visited ∨ ∀ y ∈ g x, y ∈ v := by
  intro fuel
  induction fuel with
  | zero =>
    intro rels
    induction rels with
    | nil =>
      intro visited v h
      have hv : visited = v := by simpa [walkpartsF, walkLevel] using h
      exact ⟨by simp, hv ▸ fun _ hx => hx, fun x hx => Or.inl (hv ▸ hx)⟩
    | cons r rs ih =>
      intro visited v h
      have h' : walkLevel g (fun _ _ => none) (r :: rs) visited = some v := h
      rw [walkLevel] at h'
      by_cases hr : r ∈ visited
      · rw [if_pos hr] at h'
        obtain ⟨hrs, hvis, hcl⟩ := ih visited v h'
        exact ⟨fun x hx => by
          rcases List.mem_cons.mp hx with hx | hx
          · exact hvis (hx ▸ hr)
          · exact hrs hx, hvis, hcl⟩
      · rw [if_neg hr] at h'
        exact absurd h' (by simp)
  | succ fuel' ihf =>
    intro rels
    induction rels with
    | nil =>
      intro visited v h
      have hv : visited = v := by simpa [walkpartsF, walkLevel] using h
      exact ⟨by simp, hv ▸ fun _ hx => hx, fun x hx => Or.inl (hv ▸ hx)⟩
    | cons r rs ih =>
      intro visited v h
      have h' : walkLevel g (walkpartsF g fuel') (r :: rs) visited = some v := h
      rw [walkLevel] at h'
      by_cases hr : r ∈ visited
      · rw [if_pos hr] at h'
        obtain ⟨hrs, hvis, hcl⟩ := ih visited v h'
        exact ⟨fun x hx => by
          rcases List.mem_cons.mp hx with hx | hx
          · exact hvis (hx ▸ hr)
          · exact hrs hx, hvis, hcl⟩
      · rw [if_neg hr] at h'
        cases h₁ : walkpartsF g fuel' (g r) (visited ++ [r]) with
        | none => rw [h₁] at h'; exact absurd h' (by simp)
        | some v₁ =>
          rw [h₁] at h'
          obtain ⟨hgr, hvis₁, hcl₁⟩ := ihf (g r) (visited ++ [r]) v₁ h₁
          obtain ⟨hrs, hv₁, hcl⟩ := ih v₁ v h'
          have hvis : visited ⊆ v := fun x hx => hv₁ (hvis₁ (by simp [hx]))
          have hrv : r ∈ v := hv₁ (hvis₁ (by simp))
          refine ⟨fun x hx => ?_, hvis, fun x hx => ?_⟩
          · rcases List.mem_cons.mp hx with hx | hx
            · exact hx ▸ hrv
            · exact hrs hx
          · rcases hcl x hx with hx₁ | hcl' -- membership in v₁, or closed in v
            · rcases hcl₁ x hx₁ with hx₂ | hcl₁'
              · rcases List.mem_append.mp hx₂ with hx₃ | hx₃
                · exact Or.inl hx₃
                · refine Or.inr fun y hy => ?_
                  have : y ∈ g r := by
                    have : x = r := by simpa using hx₃
                    exact this ▸ hy
                  exact hv₁ (hgr this)
              · exact Or.inr fun y hy => hv₁ (hcl₁' y hy)
            · exact Or.inr hcl'

/-- C1: for every relationship graph (including cyclic ones), the traversal
`Package._walkparts` started from the root relationships terminates — the
recursion never exceeds depth `n`, so the fuelled model returns `some` —
and the resulting part list (which is exactly the sequence of yields of
`Package._parts`, in depth-first order) yields each distinct part exactly
once: it contains every part reachable from the root relationships, and
contains no part twice. -/
theorem walkparts_terminates_and_yields_each_part_once
    (n : Nat) (g : Fin n → List (Fin n)) (roots : List (Fin n)) :
    ∃ v, Package.parts g roots = some v ∧ v.Nodup ∧
      ∀ p, Reaches g roots p → p ∈ v := by
  obtain ⟨v, hv, _, hnd⟩ :=
    walkpartsF_spec g n roots [] List.nodup_nil (by simp)
  obtain ⟨hroots, _, hclosed⟩ := walkpartsF_complete g n roots [] v hv
  refine ⟨v, hv, hnd, fun p hp => ?_⟩
  induction hp with
  | root h => exact hroots h
  | step hp hq ih =>
    rcases hclosed _ ih with h | h
    · exact absurd h (List.not_mem_nil _)
    · exact h _ hq

example :
    Package.parts (n := 2)
      (fun i => if i = 0 then [1] else [0]) [0] = some [0, 1] := by decide

/-! ### Lazy-property caching theorems -/

/-- Once the cache holds the initializer's value, every further access
returns that value and leaves the state (and call count) unchanged. -/
theorem accessN_cached (f : α) (m : Nat) (c : Nat) :
    accessN f m ⟨some f, c⟩ = (List.replicate m f, ⟨some f, c⟩) := by
  induction m with
  | zero => simp [accessN]
  | succ m ih => simp [accessN, get_prop_value, ih, List.replicate]

/-- C2: across `k ≥ 1` accesses of a lazyproperty-decorated attribute on one
object, the initializer runs exactly once (final call count is `1`) and every
access returns the value cached by the first access. -/
theorem lazyproperty_initializer_once (f : α) (k : Nat) (hk : 1 ≤ k) :
    accessN f k ⟨none, 0⟩ = (List.replicate k f, ⟨some f, 1⟩) := by
  obtain ⟨m, rfl⟩ : ∃ m, k = m + 1 := ⟨k - 1, by omega⟩
  simp [accessN, get_prop_value, accessN_cached, List.replicate]

/-- Witness for C2 at `k = 3`, `f = 42`. -/
theorem lazyproperty_initializer_once_witness :
    1 ≤ 3 ∧ accessN 42 3 ⟨none, 0⟩ = ([42, 42, 42], ⟨some 42, 1⟩) :=
  ⟨by decide, (lazyproperty_initializer_once 42 3 (by decide)).trans (by decide)⟩

/-! ## `Plot` / `DataLabels` / `PlotFactory` (`pptx/chart/plot.py`)

A plot's XML element is modelled by the one feature the accessors consult:
its optional `dLbls` child (an abstract element id).  A raised `ValueError`
is modelled as `Except.error`. -/

structure CT_PlotElm where
  dLbls : Option Nat
  deriving Repr, DecidableEq

structure Plot where
  element : CT_PlotElm
  deriving Repr, DecidableEq

structure DataLabels where
  element : Nat
  deriving Repr, DecidableEq

def plotNoDataLabelsMsg : String :=
  "plot has no data labels, set has_data_labels = True first"

/-- `Plot.data_labels`: read `self._element.dLbls`; raise `ValueError` when
it is `None`, else wrap it in a `DataLabels` instance. -/
def Plot.data_labels (p : Plot) : Except String DataLabels :=
  match p.element.dLbls with
  | none => Except.error plotNoDataLabelsMsg
  | some d => Except.ok ⟨d⟩

/-- `PlotFactory`: the function body is empty, so the Python call returns
`None` for every argument. -/
def PlotFactory (plot_elm : CT_PlotElm) : Option Plot :=
  none

/-- C7: accessing `Plot.data_labels` on a plot whose element has no `dLbls`
child surfaces the invalid-state error (and the error is raised, never
recovered into a value); when the child is present, the accessor returns a
`DataLabels` instance wrapping exactly that child. -/
theorem data_labels_invalid_state (p : Plot) :
    (p.data_labels = Except.error plotNoDataLabelsMsg ↔ p.element.dLbls = none) ∧
    (∀ d, p.element.dLbls = some d → p.data_labels = Except.ok ⟨d⟩) := by
  refine ⟨⟨fun h => ?_, fun h => ?_⟩, fun d h => ?_⟩
  · cases hd : p.element.dLbls with
    | none => rfl
    | some d => simp [Plot.data_labels, hd] at h
  · simp [Plot.data_labels, h]
  · simp [Plot.data_labels, h]

/-- Witness for C7: a plot without `dLbls` errors; one with `dLbls` id `5`
returns `DataLabels` over id `5`. -/
theorem data_labels_invalid_state_witness :
    (Plot.mk ⟨none⟩).data_labels = Except.error plotNoDataLabelsMsg ∧
    (Plot.mk ⟨some 5⟩).data_labels = Except.ok ⟨5⟩ :=
  ⟨(data_labels_invalid_state ⟨⟨none⟩⟩).1.mpr rfl,
   (data_labels_invalid_state ⟨⟨some 5⟩⟩).2 5 rfl⟩

/-- C10: `PlotFactory` returns `None` for every plot element — it never
constructs a `Plot` (its body is empty). -/
theorem plotfactory_returns_none (e : CT_PlotElm) : PlotFactory e = none :=
  rfl

/-! ## Relationships (`pptx.opc.rels` collaborators of `presentation.py`)

The relationship collection type itself lives outside the two source files;
its operations used by `Package` are modelled from the spec (section 4.1).
Relationship targets are part ids (`Nat`). -/

structure Relationship where
  rId : String
  reltype : String
  target : Nat
  is_external : Bool
  deriving Repr, DecidableEq

/-- The OPC reltype tag for the core-properties part (`RT.CORE_PROPERTIES`,
a constant from `pptx.opc.constants`). -/
def RT_CORE_PROPERTIES : String :=
  "http://schemas.openxmlformats.org/package/2006/relationships/metadata/core-properties"

/-- The OPC reltype tag for a slide master (`RT.SLIDE_MASTER`). -/
def RT_SLIDE_MASTER : String :=
  "http://schemas.openxmlformats.org/officeDocument/2006/relationships/slideMaster"

/-- Modelled from the spec: `RelationshipCollection.part_with_reltype`
returns the target part of the first relationship matching *reltype* in
insertion order, and fails with a not-found error (a Python `KeyError`)
when none matches. -/
def part_with_reltype (rels : List Relationship) (rt : String) :
    Except String Nat :=
  match rels.find? (fun r => r.reltype == rt) with
  | some r => Except.ok r.target
  | none => Except.error "no relationship of the requested reltype"

/-- Modelled from the spec: a freshly generated `rId` unique within the
collection. -/
def nextRId (rels : List Relationship) : String :=
  "rId" ++ toString (rels.length + 1)

/-- Modelled from the spec: `RelationshipCollection.get_or_add` returns the
existing relationship of that reltype when present, else creates one with a
freshly generated `rId` and appends it to the collection. -/
def get_or_add (rels : List Relationship) (rt : String) (target : Nat) :
    Relationship × List Relationship :=
  match rels.find? (fun r => r.reltype == rt) with
  | some r => (r, rels)
  | none =>
    let newRel : Relationship := ⟨nextRId rels, rt, target, false⟩
    (newRel, rels ++ [newRel])

/-- `Package.core_properties` (initializer body of the lazyproperty): try
`self._rels.part_with_reltype(RT.CORE_PROPERTIES)`; on `KeyError`, build the
default `CoreProperties` part (`default_core_props` is the fresh part id
returned by `CoreProperties._default()`), register it with `get_or_add`, and
return it.  The return type is a plain pair (part returned, resulting root
collection): the not-found error is handled inside and never propagated. -/
def Package.core_properties (rels : List Relationship)
    (default_core_props : Nat) : Nat × List Relationship :=
  match part_with_reltype rels RT_CORE_PROPERTIES with
  | Except.ok part => (part, rels)
  | Except.error _ =>
    (default_core_props, (get_or_add rels RT_CORE_PROPERTIES default_core_props).2)

/-- C3: when the root collection has no CORE_PROPERTIES relationship, the
first access of `core_properties` returns the default part and registers a
CORE_PROPERTIES relationship targeting it (the not-found error is caught,
never surfaced — `Package.core_properties` is total); when such a
relationship exists (the first one found in insertion order), its target
part is returned and the collection is unchanged. -/
theorem core_properties_recovers_not_found (rels : List Relationship)
    (d : Nat) :
    ((∀ r ∈ rels, r.reltype ≠ RT_CORE_PROPERTIES) →
      (Package.core_properties rels d).1 = d ∧
      (⟨nextRId rels, RT_CORE_PROPERTIES, d, false⟩ : Relationship) ∈
        (Package.core_properties rels d).2) ∧
    (∀ r₀, rels.find? (fun r => r.reltype == RT_CORE_PROPERTIES) = some r₀ →
      Package.core_properties rels d = (r₀.target, rels)) := by
  constructor
  · intro habsent
    have hnone : rels.find? (fun r => r.reltype == RT_CORE_PROPERTIES) = none := by
      refine List.find?_eq_none.mpr fun r hr => ?_
      simpa using habsent r hr
    simp [Package.core_properties, part_with_reltype, get_or_add, hnone]
  · intro r₀ hfind
    simp [Package.core_properties, part_with_reltype, hfind]

/-- Witness for C3: an empty root collection gets the default part `7`
registered and returned; a collection already holding a CORE_PROPERTIES
relationship targeting part `3` returns `3` and is left unchanged. -/
theorem core_properties_recovers_not_found_witness :
    ((Package.core_properties [] 7).1 = 7 ∧
      (⟨nextRId [], RT_CORE_PROPERTIES, 7, false⟩ : Relationship) ∈
        (Package.core_properties [] 7).2) ∧
    Package.core_properties [⟨"rId9", RT_CORE_PROPERTIES, 3, false⟩] 7 =
      (3, [⟨"rId9", RT_CORE_PROPERTIES, 3, false⟩]) :=
  ⟨(core_properties_recovers_not_found [] 7).1 (by simp),
   (core_properties_recovers_not_found [⟨"rId9", RT_CORE_PROPERTIES, 3, false⟩] 7).2
     ⟨"rId9", RT_CORE_PROPERTIES, 3, false⟩ (by simp [List.find?])⟩

/-! ## `Presentation` (`pptx/presentation.py`, lines 181-224)

The presentation's XML element is modelled by the one feature the accessors
consult: its optional `sldIdLst` child (a list of slide-id entries, abstract
`Nat`s).  A `Presentation` part's mutable state is its element, its
relationship collection, and the two dynamically created cache attributes
`_slidemasters` and `_slides` (absent attribute = `none`). -/

structure CT_Presentation where
  sldIdLst : Option (List Nat)
  deriving Repr, DecidableEq

/-- Modelled from the spec: the oxml helper `get_or_add_sldIdLst` returns
the element's existing `sldIdLst` child, first inserting an empty one when
it is absent (the element is mutated in that case). -/
def CT_Presentation.get_or_add_sldIdLst (e : CT_Presentation) :
    List Nat × CT_Presentation :=
  match e.sldIdLst with
  | some l => (l, e)
  | none => ([], { e with sldIdLst := some [] })

/-- The value of `SlideCollection(sldIdLst, rels, self)` as far as the
claims observe it: the `sldIdLst` contents and the relationship collection
it was built from (the back-reference to the presentation is dropped). -/
structure SlideCollection where
  sldIdLst : List Nat
  rels : List Relationship
  deriving Repr, DecidableEq

structure PresState where
  element : CT_Presentation
  relationships : List Relationship
  slidemasters_cache : Option (List Nat)
  slides_cache : Option SlideCollection
  deriving Repr, DecidableEq

/-- `Presentation.slidemasters`: create an empty `PartCollection` on first
access (`hasattr` check), then return the collection's contents. -/
def Presentation.slidemasters (s : PresState) : List Nat × PresState :=
  match s.slidemasters_cache with
  | some ms => (ms, s)
  | none => ([], { s with slidemasters_cache := some [] })

/-- `self.slidemasters.add_part(part)`: access the collection, then append
*part* to it (modelled from the spec: `PartCollection.add_part` adds the
part to the collection). -/
def Presentation.slidemasters_add_part (s : PresState) (p : Nat) : PresState :=
  let ms_s := Presentation.slidemasters s
  { ms_s.2 with slidemasters_cache := some (ms_s.1 ++ [p]) }

/-- One iteration of the `for rel in self._relationships` loop of
`Presentation.after_unmarshal`. -/
def Presentation.unmarshal_step (st : PresState) (rel : Relationship) :
    PresState :=
  if rel.reltype == RT_SLIDE_MASTER then
    Presentation.slidemasters_add_part st rel.target
  else
    st

/-- `Presentation.after_unmarshal`: add the target of every SLIDE_MASTER
relationship to the `slidemasters` collection.  Invoked by the loading code
(the Unmarshaller) after all parts and relationships are loaded. -/
def Presentation.after_unmarshal (s : PresState) : PresState :=
  s.relationships.foldl Presentation.unmarshal_step s

/-- `Presentation.slides`: on first access (`hasattr` check), call
`get_or_add_sldIdLst` on the element — mutating it when the child is
absent — then build and cache the `SlideCollection`. -/
def Presentation.slides (s : PresState) : SlideCollection × PresState :=
  match s.slides_cache with
  | some sc => (sc, s)
  | none =>
    let lst_elm := s.element.get_or_add_sldIdLst
    let sc : SlideCollection := ⟨lst_elm.1, s.relationships⟩
    (sc, { s with element := lst_elm.2, slides_cache := some sc })

/-- `slidemasters_add_part` touches only the `_slidemasters` cache and
appends the part to the collection's contents. -/
theorem slidemasters_add_part_effect (s : PresState) (p : Nat) :
    (Presentation.slidemasters_add_part s p).element = s.element ∧
    (Presentation.slidemasters_add_part s p).relationships = s.relationships ∧
    (Presentation.slidemasters_add_part s p).slides_cache = s.slides_cache ∧
    (Presentation.slidemasters
        (Presentation.slidemasters_add_part s p)).1 =
      (Presentation.slidemasters s).1 ++ [p] := by
  cases h : s.slidemasters_cache <;>
    simp [Presentation.slidemasters_add_part, Presentation.slidemasters, h]

/-- Effect of the whole `after_unmarshal` loop: element, relationships and
the `_slides` cache are untouched; the `slidemasters` collection gains the
targets of the SLIDE_MASTER relationships, in relationship order. -/
theorem after_unmarshal_fold (rels : List Relationship) :
    ∀ s : PresState,
      (rels.foldl Presentation.unmarshal_step s).element = s.element ∧
      (rels.foldl Presentation.unmarshal_step s).relationships =
        s.relationships ∧
      (rels.foldl Presentation.unmarshal_step s).slides_cache =
        s.slides_cache ∧
      (Presentation.slidemasters (rels.foldl Presentation.unmarshal_step s)).1 =
        (Presentation.slidemasters s).1 ++
          (rels.filter (fun r => r.reltype == RT_SLIDE_MASTER)).map
            Relationship.target := by
  induction rels with
  | nil => intro s; simp
  | cons r rs ih =>
    intro s
    by_cases hr : r.reltype == RT_SLIDE_MASTER
    · obtain ⟨he, hrel, hsl, hms⟩ :=
        ih (Presentation.slidemasters_add_part s r.target)
      obtain ⟨ae, arel, asl, ams⟩ := slidemasters_add_part_effect s r.target
      refine ⟨?_, ?_, ?_, ?_⟩ <;>
        simp [List.foldl_cons, Presentation.unmarshal_step, hr, he, hrel,
          hsl, hms, ae, arel, asl, ams, List.filter_cons]
    · obtain ⟨he, hrel, hsl, hms⟩ := ih s
      refine ⟨?_, ?_, ?_, ?_⟩ <;>
        simp [List.foldl_cons, Presentation.unmarshal_step, hr, he, hrel,
          hsl, hms, List.filter_cons]

/-- A freshly loaded presentation part whose relationship collection holds
one SLIDE_MASTER relationship targeting part `2`: no `sldIdLst` child, no
cache attributes yet. -/
def presC4 : PresState :=
  ⟨⟨none⟩, [⟨"rId1", RT_SLIDE_MASTER, 2, false⟩], none, none⟩

/-- Counterexample to C4 as stated: running the unmarshal hook on `presC4`
leaves the `_slidemasters` collection holding part `2` — it is neither
still-absent nor empty, so `slidemasters` *is* populated eagerly during
unmarshalling. -/
theorem slidemasters_populated_during_unmarshal :
    ¬((Presentation.after_unmarshal presC4).slidemasters_cache = none ∨
      (Presentation.after_unmarshal presC4).slidemasters_cache = some []) := by
  have h : (Presentation.after_unmarshal presC4).slidemasters_cache
      = some [2] := by decide
  rw [h]
  simp

/-- C4 (amended): `slides` is not populated during unmarshalling — the hook
leaves `_slides` absent and the element untouched — and its collection is
built from the live element and relationships on first access; but
`slidemasters` is populated eagerly by `after_unmarshal`, which adds the
target of every SLIDE_MASTER relationship to the collection. -/
theorem presentation_lazy_amended (element : CT_Presentation)
    (rels : List Relationship) :
    (Presentation.after_unmarshal ⟨element, rels, none, none⟩).slides_cache
      = none ∧
    (Presentation.after_unmarshal ⟨element, rels, none, none⟩).element
      = element ∧
    (Presentation.slidemasters
        (Presentation.after_unmarshal ⟨element, rels, none, none⟩)).1 =
      (rels.filter (fun r => r.reltype == RT_SLIDE_MASTER)).map
        Relationship.target ∧
    (Presentation.slides
        (Presentation.after_unmarshal ⟨element, rels, none, none⟩)).1 =
      ⟨element.get_or_add_sldIdLst.1, rels⟩ := by
  obtain ⟨he, hrel, hsl, hms⟩ :=
    after_unmarshal_fold rels ⟨element, rels, none, none⟩
  refine ⟨hsl, he, ?_, ?_⟩
  · show (Presentation.slidemasters
        (rels.foldl Presentation.unmarshal_step ⟨element, rels, none, none⟩)).1 = _
    rw [hms]
    simp [Presentation.slidemasters]
  · show (Presentation.slides
        (rels.foldl Presentation.unmarshal_step ⟨element, rels, none, none⟩)).1 = _
    simp [Presentation.slides, hsl, he, hrel]

/-- C8: the first access of `Presentation.slides` on a part whose element
has no `sldIdLst` child mutates the element — an empty `sldIdLst` is
inserted — before the `SlideCollection` is built (from that empty list and
the live relationships) and cached. -/
theorem slides_first_access_mutates_element (s : PresState)
    (h₁ : s.element.sldIdLst = none) (h₂ : s.slides_cache = none) :
    (Presentation.slides s).2.element.sldIdLst = some [] ∧
    (Presentation.slides s).2.element.sldIdLst ≠ s.element.sldIdLst ∧
    (Presentation.slides s).2.slides_cache = some ⟨[], s.relationships⟩ ∧
    (Presentation.slides s).1 = ⟨[], s.relationships⟩ := by
  simp [Presentation.slides, h₂, CT_Presentation.get_or_add_sldIdLst, h₁]

/-- Witness for C8 on a concrete freshly loaded presentation part. -/
theorem slides_first_access_mutates_element_witness :
    (Presentation.slides ⟨⟨none⟩, [], none, none⟩).2.element.sldIdLst
      = some [] ∧
    (Presentation.slides
        ⟨⟨none⟩, [], none, none⟩).2.element.sldIdLst ≠ none ∧
    (Presentation.slides ⟨⟨none⟩, [], none, none⟩).2.slides_cache
      = some ⟨[], []⟩ ∧
    (Presentation.slides ⟨⟨none⟩, [], none, none⟩).1 = ⟨[], []⟩ :=
  slides_first_access_mutates_element ⟨⟨none⟩, [], none, none⟩ rfl rfl

/-! ## Package instance registry (`pptx/presentation.py`, lines 56-57,
64-67, 77-83, 98-106)

Packages are identified by `Nat` ids.  The class attribute `_instances` is a
list of weak references in registration order; garbage collection is
modelled by a predicate `alive` telling which packages still exist, and
dereferencing a weak reference (`wkref()`) yields `some` the package when it
is alive and `none` (Python `None`) when it has been collected. -/

def wkref_deref (alive : Nat → Bool) (i : Nat) : Option Nat :=
  if alive i then some i else none

/-- `Package.__init__`: `self._instances.append(weakref.ref(self))`. -/
def Package.init_register (registry : List Nat) (pkgId : Nat) : List Nat :=
  registry ++ [pkgId]

/-- `Package.instances`: first prune garbage-collected packages out of
`_instances` (keep the weak references whose dereference is not `None`),
then return the dereferenced survivors as a tuple.  Result: the returned
tuple and the pruned registry that `_instances` now holds. -/
def Package.instances (alive : Nat → Bool) (registry : List Nat) :
    List (Option Nat) × List Nat :=
  let registry' := registry.filter (fun i => (wkref_deref alive i).isSome)
  (registry'.map (wkref_deref alive), registry')

/-- The pruned registry is exactly the live packages, in registration
order. -/
theorem instances_pruned (alive : Nat → Bool) (registry : List Nat) :
    (Package.instances alive registry).2 = registry.filter (fun i => alive i) := by
  simp only [Package.instances]
  congr 1
  funext i
  simp [wkref_deref]
  by_cases h : alive i <;> simp [h]

/-- C5: a constructed Package is appended to the class-level registry by
`__init__`; `instances()` returns exactly the live packages (each weak
reference in the pruned registry dereferences to its package), and a
collected package is neither returned nor kept in the registry. -/
theorem package_registry_spec (alive : Nat → Bool) (registry : List Nat)
    (p : Nat) :
    p ∈ Package.init_register registry p ∧
    (Package.instances alive registry).1 =
      (registry.filter (fun i => alive i)).map some ∧
    (alive p = false →
      some p ∉ (Package.instances alive registry).1 ∧
      p ∉ (Package.instances alive registry).2) := by
  refine ⟨by simp [Package.init_register], ?_, ?_⟩
  · show ((Package.instances alive registry).2).map (wkref_deref alive) = _
    rw [instances_pruned]
    refine List.map_congr_left fun i hi => ?_
    have : alive i = true := (List.mem_filter.mp hi).2
    simp [wkref_deref, this]
  · intro hdead
    have hreg : (Package.instances alive registry).2 =
        registry.filter (fun i => alive i) := instances_pruned alive registry
    constructor
    · show some p ∉ ((Package.instances alive registry).2).map (wkref_deref alive)
      rw [hreg]
      intro hmem
      obtain ⟨j, hj, hde⟩ := List.mem_map.mp hmem
      have hja : alive j = true := (List.mem_filter.mp hj).2
      have : j = p := by simpa [wkref_deref, hja] using hde
      rw [this] at hja
      rw [hdead] at hja
      exact Bool.false_ne_true hja
    · rw [hreg]
      intro hmem
      have := (List.mem_filter.mp hmem).2
      rw [hdead] at this
      exact Bool.false_ne_true this

/-- Witness for C5: registry `[0, 1]`, only package `0` still alive,
package `p = 1` collected. -/
theorem package_registry_spec_witness :
    1 ∈ Package.init_register [0, 1] 1 ∧
    (Package.instances (fun i => decide (i = 0)) [0, 1]).1 =
      (([0, 1].filter (fun i => decide (i = 0))).map some) ∧
    (some 1 ∉ (Package.instances (fun i => decide (i = 0)) [0, 1]).1 ∧
      1 ∉ (Package.instances (fun i => decide (i = 0)) [0, 1]).2) :=
  have h := package_registry_spec (fun i => decide (i = 0)) [0, 1] 1
  ⟨h.1, h.2.1, h.2.2 (by decide)⟩

/-! ## `Package.containing` (lines 77-83) -/

/-- The relationship graph of one package over a universe of `n` parts:
its per-part outgoing targets and its root relationship targets. -/
structure PkgGraph (n : Nat) where
  g : Fin n → List (Fin n)
  roots : List (Fin n)

/-- The value of `pkg._parts` for a package graph — the traversal result
(`[]` only in the unreachable fuel-exhausted case, which `walkpartsF_spec`
rules out). -/
def PkgGraph.partsList (pg : PkgGraph n) : List (Fin n) :=
  (Package.parts pg.g pg.roots).getD []

/-- `Package.containing`: iterate over `cls.instances()` in order and return
the first live package whose `_parts` contains *part*; raise `KeyError` when
none does. -/
def Package.containing (alive : Nat → Bool) (registry : List Nat)
    (pkgOf : Nat → PkgGraph n) (part : Fin n) : Except String Nat :=
  match (Package.instances alive registry).2.find?
      (fun i => decide (part ∈ (pkgOf i).partsList)) with
  | some i => Except.ok i
  | none => Except.error "No package contains part"

/-- C9: `containing` returns the first live registered package (in
registration order) whose traversed part list contains the part — every
earlier live package does not contain it — and raises `KeyError` when no
live package contains it. -/
theorem containing_first_or_keyerror (n : Nat) (alive : Nat → Bool)
    (registry : List Nat) (pkgOf : Nat → PkgGraph n) (part : Fin n) :
    (∀ i, Package.containing alive registry pkgOf part = Except.ok i →
      i ∈ registry ∧ alive i = true ∧ part ∈ (pkgOf i).partsList ∧
      ∃ pre post, registry.filter (fun j => alive j) = pre ++ i :: post ∧
        ∀ j ∈ pre, part ∉ (pkgOf j).partsList) ∧
    ((∀ i ∈ registry, alive i = true → part ∉ (pkgOf i).partsList) →
      Package.containing alive registry pkgOf part =
        Except.error "No package contains part") := by
  constructor
  · intro i hok
    rw [Package.containing] at hok
    cases hfind : (Package.instances alive registry).2.find?
        (fun i => decide (part ∈ (pkgOf i).partsList)) with
    | none => rw [hfind] at hok; exact absurd hok (by simp)
    | some i' =>
      rw [hfind] at hok
      have hii : i' = i := by simpa using hok
      rw [hii] at hfind
      rw [instances_pruned] at hfind
      obtain ⟨hp, pre, post, hsplit, hpre⟩ := List.find?_eq_some.mp hfind
      have hmem : i ∈ registry.filter (fun j => alive j) := by
        rw [hsplit]; simp
      refine ⟨(List.mem_filter.mp hmem).1, (List.mem_filter.mp hmem).2, by
        simpa using hp, pre, post, hsplit, fun j hj => by
        simpa using hpre j hj⟩
  · intro habsent
    rw [Package.containing]
    have hfind : (Package.instances alive registry).2.find?
        (fun i => decide (part ∈ (pkgOf i).partsList)) = none := by
      rw [instances_pruned]
      refine List.find?_eq_none.mpr fun j hj => ?_
      have hj' := List.mem_filter.mp hj
      simpa using habsent j hj'.1 hj'.2
    rw [hfind]

/-- Witness for C9: a one-part universe; package `5` (the only live entry of
the registry) reaches part `0` from its roots, so `containing` returns `5`;
with a second assignment where no package has any root relationship,
`containing` raises `KeyError`. -/
theorem containing_first_or_keyerror_witness :
    (5 ∈ ([5] : List Nat) ∧ (fun _ => true) 5 = true ∧
      (0 : Fin 1) ∈ (PkgGraph.mk (fun _ => []) [0]).partsList ∧
      ∃ pre post, ([5].filter (fun j => (fun _ => true) j)) = pre ++ 5 :: post ∧
        ∀ j ∈ pre, (0 : Fin 1) ∉
          ((fun _ => PkgGraph.mk (n := 1) (fun _ => []) [0]) j).partsList) ∧
    Package.containing (fun _ => true) [5]
        (fun _ => PkgGraph.mk (n := 1) (fun _ => []) []) (0 : Fin 1) =
      Except.error "No package contains part" :=
  ⟨(containing_first_or_keyerror 1 (fun _ => true) [5]
      (fun _ => PkgGraph.mk (fun _ => []) [0]) 0).1 5 rfl,
   (containing_first_or_keyerror 1 (fun _ => true) [5]
      (fun _ => PkgGraph.mk (fun _ => []) []) 0).2 (by decide)⟩

/-! ## `Package.open` (lines 59-62, 108-120)

The container reader (`PackageReader.from_file`) and the `Unmarshaller` are
external collaborators consumed through narrow interfaces; they are
abstract parameters here.  A newly constructed `Package` object is its id
plus its (initially empty) root relationship collection. -/

structure PkgObj where
  pkgId : Nat
  rels : List Relationship
  deriving Repr, DecidableEq

/-- The bundled default presentation template
(`os.path.join(os.path.split(__file__)[0], 'templates', 'default.pptx')`). -/
def Package.default_pptx_path : String :=
  "pptx/templates/default.pptx"

/-- `Package()` / `Package.__init__`: register a weak reference to the new
instance in the class registry and give it a fresh empty root
`RelationshipCollection`. -/
def Package.mk_new (registry : List Nat) (freshId : Nat) :
    PkgObj × List Nat :=
  (⟨freshId, []⟩, Package.init_register registry freshId)

/-- `Package.open(pkg_file=None)`: resolve a missing `pkg_file` to the
default template path, read the container at that path, construct a new
`Package`, run the `Unmarshaller` over reader, package and `PartFactory`,
and return the package.  `from_file` and `unmarshal` model the collaborators
(`unmarshal` already closed over `PartFactory`); the registry side effect of
construction is returned alongside. -/
def Package.open_file {Container : Type} (from_file : String → Container)
    (unmarshal : Container → PkgObj → PkgObj) (pkg_file : Option String)
    (registry : List Nat) (freshId : Nat) : PkgObj × List Nat :=
  let path :=
    match pkg_file with
    | none => Package.default_pptx_path
    | some p => p
  let pkg_reader := from_file path
  let pkg_reg := Package.mk_new registry freshId
  (unmarshal pkg_reader pkg_reg.1, pkg_reg.2)

/-- C6: `open` with no argument reads the container at the bundled default
template path, and in all cases returns the unmarshalled result over a
freshly constructed (and registered) package built from the container that
was read. -/
theorem open_resolves_default_and_unmarshals {Container : Type}
    (from_file : String → Container) (unmarshal : Container → PkgObj → PkgObj)
    (registry : List Nat) (freshId : Nat) :
    Package.open_file from_file unmarshal none registry freshId =
      (unmarshal (from_file Package.default_pptx_path) ⟨freshId, []⟩,
        registry ++ [freshId]) ∧
    (∀ p, Package.open_file from_file unmarshal (some p) registry freshId =
      (unmarshal (from_file p) ⟨freshId, []⟩, registry ++ [freshId])) :=
  ⟨rfl, fun _ => rfl⟩
